import Mathlib

/-!
Verification of the batch/queue data structure and scheduling logic of
`threadpool.h`, a single-header allocation-free thread pool with batch
scheduling.

Modelling choices (shallow embedding):
* Tasks are identified by natural numbers (`TaskId`); a task's one mutable
  field, its intrusive `next` pointer, lives in an explicit heap
  `Heap := TaskId → Option TaskId` (`none` models the C `NULL` pointer).
* `struct tpool_batch` becomes the `Batch` structure with the same three
  fields (`size`, `head`, `tail`).
* The batch operations `tpool_batch_from_task`, `tpool_batch_push` and
  `tpool_batch_pop` are translated statement by statement from the C source;
  operations that write or read a task's `next` field thread the heap
  explicitly.  Branches that would dereference a `NULL` pointer in C
  (unreachable for well-formed batches) are made total by returning their
  input unchanged.
* `unsigned int` counters are modelled as `Nat`; the operations only ever
  increment them by the number of tasks actually present, and decrements are
  guarded exactly as in the source, so no wrap-around is reachable in the
  modelled scenarios.
-/

namespace ThreadpoolH

/-- Task identifiers stand for `struct tpool_task *` values. -/
abbrev TaskId := Nat

/-- The heap of intrusive `next` fields: for each task, the current value of
its `next` pointer (`none` = `NULL`). -/
abbrev Heap := TaskId → Option TaskId

/-- `struct tpool_batch`: size, head pointer, tail pointer. -/
structure Batch where
  size : Nat
  head : Option TaskId
  tail : Option TaskId
deriving DecidableEq

/-- The empty batch `(struct tpool_batch){0}`. -/
def emptyBatch : Batch := ⟨0, none, none⟩

/-- `tpool_batch_from_task`: a size-1 batch whose head and tail are the given
task.  The C function writes only the returned batch value; in particular it
never touches the task's `next` field, which is why it does not take or
return a `Heap`. -/
def tpool_batch_from_task (t : TaskId) : Batch := ⟨1, some t, some t⟩

/-- `tpool_batch_push(b, o)`: splice batch `o` onto batch `b`.  Writes
`b->tail->next = o.head` in the non-trivial case, so it returns the updated
heap together with the updated batch.  The `none` tail branch corresponds to
a `NULL` dereference in C and is unreachable for well-formed batches. -/
def tpool_batch_push (h : Heap) (b : Batch) (o : Batch) : Heap × Batch :=
  if o.size = 0 then (h, b)
  else if b.size = 0 then (h, o)
  else
    match b.tail with
    | some tl => (Function.update h tl o.head, ⟨b.size + o.size, b.head, o.tail⟩)
    | none => (h, b)

/-- `tpool_batch_pop(b)`: remove and return the head task.  Mirrors the C
control flow: on a non-empty batch it reads `b->head->next` unconditionally,
then overwrites both `head` and `tail` with `NULL` whenever the popped task
was the tail.  The `none` head branch corresponds to a `NULL` dereference in
C and is unreachable for well-formed batches. -/
def tpool_batch_pop (h : Heap) (b : Batch) : Option TaskId × Batch :=
  if b.size = 0 then (none, b)
  else
    match b.head with
    | none => (none, b)
    | some t =>
      if b.tail = some t then (some t, ⟨b.size - 1, none, none⟩)
      else (some t, ⟨b.size - 1, h t, b.tail⟩)

/-- Build a batch the way the calibration test `thousand_tasks` does: start
from `tpool_batch_from_task` on the first task and `tpool_batch_push` a
singleton batch for each further task; the empty list yields the zeroed
batch. -/
def batchOfTasks (h : Heap) (ts : List TaskId) : Heap × Batch :=
  match ts with
  | [] => (h, emptyBatch)
  | t :: rest =>
    rest.foldl
      (fun (hb : Heap × Batch) u => tpool_batch_push hb.1 hb.2 (tpool_batch_from_task u))
      (h, tpool_batch_from_task t)

/-- Repeatedly `tpool_batch_pop` until the pop reports an empty batch,
collecting the dequeued tasks in order.  The fuel is the batch's size, which
each successful pop decrements by one. -/
def drainGo : Nat → Heap → Batch → List TaskId
  | 0, _, _ => []
  | fuel + 1, h, b =>
    match tpool_batch_pop h b with
    | (none, _) => []
    | (some t, b') => t :: drainGo fuel h b'

/-- The dequeue order of a batch: the tasks returned by repeated
`tpool_batch_pop`. -/
def drain (h : Heap) (b : Batch) : List TaskId := drainGo b.size h b

/-- `Chain h a l tl`: starting from task `a` and following `next` links in
heap `h` one visits exactly the tasks of `l` (so `l` begins with `a`), ending
at task `tl`.  The last node's `next` field is never consulted. -/
inductive Chain (h : Heap) : TaskId → List TaskId → TaskId → Prop
  | single (t : TaskId) : Chain h t [t] t
  | cons {a b tl : TaskId} {l : List TaskId} :
      h a = some b → Chain h b l tl → Chain h a (a :: l) tl

/-- `ReprB h b l`: batch `b` represents the task list `l` in heap `h`:
the stored size is the length of `l`, and either `l` is empty and both
pointers are `NULL`, or head/tail point at the ends of a `next`-chain
spelling out `l`. -/
def ReprB (h : Heap) (b : Batch) (l : List TaskId) : Prop :=
  b.size = l.length ∧
  ((l = [] ∧ b.head = none ∧ b.tail = none) ∨
   (∃ hd tl, b.head = some hd ∧ b.tail = some tl ∧ Chain h hd l tl))

theorem chain_ne_nil {h : Heap} {a tl : TaskId} {l : List TaskId}
    (hc : Chain h a l tl) : l ≠ [] := by
  cases hc <;> simp

theorem chain_head {h : Heap} {a tl : TaskId} {l : List TaskId}
    (hc : Chain h a l tl) : ∃ l', l = a :: l' := by
  cases hc with
  | single t => exact ⟨[], rfl⟩
  | cons hnext hc' => exact ⟨_, rfl⟩

theorem chain_last_mem {h : Heap} {a tl : TaskId} {l : List TaskId}
    (hc : Chain h a l tl) : tl ∈ l := by
  induction hc with
  | single t => simp
  | cons hnext hc' ih => simp [ih]

/-- A chain only reads the heap at its member tasks, so it survives any heap
change outside `l`. -/
theorem chain_congr {h h' : Heap} {a tl : TaskId} {l : List TaskId}
    (hc : Chain h a l tl) (hagree : ∀ x ∈ l, h' x = h x) : Chain h' a l tl := by
  induction hc with
  | single t => exact Chain.single t
  | @cons a1 b1 tl1 l1 hnext hc' ih =>
    refine Chain.cons ?_ (ih fun x hx => hagree x (List.mem_cons_of_mem _ hx))
    rw [hagree a1 (List.mem_cons_self _ _)]
    exact hnext

/-- A duplicate-free chain never reads the `next` field of its last node, so
updating the heap at the tail leaves the chain intact. -/
theorem chain_update_tail {h : Heap} {a tl : TaskId} {l : List TaskId}
    (hc : Chain h a l tl) (v : Option TaskId) :
    l.Nodup → Chain (Function.update h tl v) a l tl := by
  induction hc with
  | single t => exact fun _ => Chain.single t
  | @cons a1 b1 tl1 l1 hnext hc' ih =>
    intro hnd
    have hmem : tl1 ∈ l1 := chain_last_mem hc'
    have hane : a1 ≠ tl1 := by
      intro hcontra
      subst hcontra
      exact (List.nodup_cons.mp hnd).1 hmem
    refine Chain.cons ?_ (ih (List.nodup_cons.mp hnd).2)
    rw [Function.update_noteq hane]
    exact hnext

/-- Appending two chains joined by a `next` link. -/
theorem chain_append {h : Heap} {a t1 a2 t2 : TaskId} {l1 l2 : List TaskId}
    (hc1 : Chain h a l1 t1) (hlink : h t1 = some a2) (hc2 : Chain h a2 l2 t2) :
    Chain h a (l1 ++ l2) t2 := by
  induction hc1 with
  | single t => exact Chain.cons hlink hc2
  | cons hnext hc' ih => exact Chain.cons hnext (ih hlink)

theorem reprB_empty (h : Heap) : ReprB h emptyBatch [] := by
  exact ⟨rfl, Or.inl ⟨rfl, rfl, rfl⟩⟩

theorem reprB_from_task (h : Heap) (t : TaskId) :
    ReprB h (tpool_batch_from_task t) [t] :=
  ⟨rfl, Or.inr ⟨t, t, rfl, rfl, Chain.single t⟩⟩

theorem reprB_nil_iff {h : Heap} {b : Batch} {l : List TaskId}
    (hr : ReprB h b l) (hl : l = []) : b = emptyBatch := by
  subst hl
  obtain ⟨hsize, hcase⟩ := hr
  rcases hcase with ⟨-, hhd, htl⟩ | ⟨hd, tl, hhd, htl, hc⟩
  · cases b
    simp_all [emptyBatch]
  · exact absurd rfl (chain_ne_nil hc)

/-- `tpool_batch_push` concatenates representations: the result represents
`la ++ lb` whenever the arguments represent `la` and `lb` over distinct
tasks. -/
theorem push_repr {h : Heap} {A B : Batch} {la lb : List TaskId}
    (ha : ReprB h A la) (hb : ReprB h B lb) (hnd : (la ++ lb).Nodup) :
    ReprB (tpool_batch_push h A B).1 (tpool_batch_push h A B).2 (la ++ lb) := by
  obtain ⟨hsa, hca⟩ := ha
  obtain ⟨hsb, hcb⟩ := hb
  by_cases hlb : lb = []
  · subst hlb
    have hBz : B.size = 0 := by simp [hsb]
    simp only [tpool_batch_push, hBz, if_pos rfl, List.append_nil]
    exact ⟨hsa, hca⟩
  · have hBnz : B.size ≠ 0 := by
      simp [hsb, List.length_eq_zero]
      exact hlb
    by_cases hla : la = []
    · subst hla
      have hAz : A.size = 0 := by simp [hsa]
      simp only [tpool_batch_push, if_neg hBnz, hAz, if_pos rfl, List.nil_append]
      exact ⟨hsb, hcb⟩
    · have hAnz : A.size ≠ 0 := by
        simp [hsa, List.length_eq_zero]
        exact hla
      rcases hca with ⟨hla', -, -⟩ | ⟨hda, tla, hhda, htla, hca⟩
      · exact absurd hla' hla
      rcases hcb with ⟨hlb', -, -⟩ | ⟨hdb, tlb, hhdb, htlb, hcb⟩
      · exact absurd hlb' hlb
      have hnda : la.Nodup := hnd.of_append_left
      have hdisj : la.Disjoint lb := List.disjoint_of_nodup_append hnd
      have htla_notin : tla ∉ lb := hdisj (chain_last_mem hca)
      simp only [tpool_batch_push, if_neg hBnz, if_neg hAnz, htla, hhdb]
      refine ⟨by simp [hsa, hsb], Or.inr ⟨hda, tlb, hhda, htlb, ?_⟩⟩
      have hca' : Chain (Function.update h tla (some hdb)) hda la tla :=
        chain_update_tail hca (some hdb) hnda
      have hcb' : Chain (Function.update h tla (some hdb)) hdb lb tlb :=
        chain_congr hcb (fun x hx => Function.update_noteq (by
          intro hcontra
          subst hcontra
          exact htla_notin hx) _ _)
      exact chain_append hca' (Function.update_same _ _ _) hcb'

/-- `tpool_batch_pop` on a batch representing `t :: l` returns `t` and
leaves a batch representing `l`; the heap is not modified. -/
theorem pop_repr {h : Heap} {b : Batch} {t : TaskId} {l : List TaskId}
    (hr : ReprB h b (t :: l)) (hnotin : t ∉ l) :
    ∃ b', tpool_batch_pop h b = (some t, b') ∧ ReprB h b' l := by
  obtain ⟨hsize, hcase⟩ := hr
  rcases hcase with ⟨hcontra, -, -⟩ | ⟨hd, tl, hhd, htl, hc⟩
  · exact absurd hcontra (by simp)
  have hhd' : hd = t := by
    obtain ⟨l', hl'⟩ := chain_head hc
    injection hl' with h1 h2
    exact h1.symm
  subst hhd'
  have hnz : b.size ≠ 0 := by simp [hsize]
  cases hc with
  | single _ =>
    refine ⟨⟨b.size - 1, none, none⟩, ?_, ?_⟩
    · simp [tpool_batch_pop, if_neg hnz, hhd, htl]
    · exact ⟨by simp [hsize], Or.inl ⟨rfl, rfl, rfl⟩⟩
  | @cons _ b2 _ _ hnext hc' =>
    have htlmem : tl ∈ l := chain_last_mem hc'
    have htlne : tl ≠ hd := by
      intro hcontra
      subst hcontra
      exact hnotin htlmem
    have htlcheck : ¬ b.tail = some hd := by
      rw [htl]
      intro hcontra
      exact htlne (Option.some.inj hcontra)
    refine ⟨⟨b.size - 1, h hd, b.tail⟩, ?_, ?_⟩
    · simp only [tpool_batch_pop, if_neg hnz, hhd, if_neg htlcheck]
    · refine ⟨by simp [hsize], Or.inr ⟨b2, tl, ?_, htl, hc'⟩⟩
      simp [hnext]

/-- Popping an empty batch is a no-op returning `none`. -/
theorem pop_empty {h : Heap} {b : Batch} (hz : b.size = 0) :
    tpool_batch_pop h b = (none, b) := by
  simp [tpool_batch_pop, hz]

/-- Draining a represented batch recovers exactly its task list. -/
theorem drain_repr {h : Heap} :
    ∀ (l : List TaskId) (b : Batch), l.Nodup → ReprB h b l → drain h b = l := by
  intro l
  induction l with
  | nil =>
    intro b hnd hr
    have hz : b.size = 0 := by simp [hr.1]
    simp [drain, hz, drainGo]
  | cons t l ih =>
    intro b hnd hr
    have hnotin : t ∉ l := (List.nodup_cons.mp hnd).1
    obtain ⟨b', hpop, hr'⟩ := pop_repr hr hnotin
    have hsize : b.size = l.length + 1 := by simp [hr.1]
    have hsize' : b'.size = l.length := by simp [hr'.1]
    have ihb : drain h b' = l := ih b' (List.nodup_cons.mp hnd).2 hr'
    rw [drain, hsize]
    simp only [drainGo, hpop]
    rw [← hsize', ← drain]
    rw [ihb]

/-- Folding singleton pushes extends the representation on the right. -/
theorem fold_push_repr :
    ∀ (rest : List TaskId) (h : Heap) (b : Batch) (acc : List TaskId),
      ReprB h b acc → (acc ++ rest).Nodup →
      ReprB
        (rest.foldl
          (fun (hb : Heap × Batch) u =>
            tpool_batch_push hb.1 hb.2 (tpool_batch_from_task u)) (h, b)).1
        (rest.foldl
          (fun (hb : Heap × Batch) u =>
            tpool_batch_push hb.1 hb.2 (tpool_batch_from_task u)) (h, b)).2
        (acc ++ rest) := by
  intro rest
  induction rest with
  | nil =>
    intro h b acc hr hnd
    simp only [List.foldl_nil, List.append_nil]
    exact hr
  | cons u rest ih =>
    intro h b acc hr hnd
    have hnd1 : (acc ++ [u]).Nodup := by
      refine List.Nodup.sublist ?_ hnd
      refine List.Sublist.append_left ?_ acc
      exact List.singleton_sublist.mpr (List.mem_cons_self u rest)
    have hstep :
        ReprB (tpool_batch_push h b (tpool_batch_from_task u)).1
          (tpool_batch_push h b (tpool_batch_from_task u)).2 (acc ++ [u]) :=
      push_repr hr (reprB_from_task h u) hnd1
    have hnd2 : ((acc ++ [u]) ++ rest).Nodup := by
      rw [List.append_assoc, List.singleton_append]
      exact hnd
    have := ih (tpool_batch_push h b (tpool_batch_from_task u)).1
      (tpool_batch_push h b (tpool_batch_from_task u)).2 (acc ++ [u]) hstep hnd2
    simpa [List.append_assoc] using this

/-- `batchOfTasks` builds a batch representing exactly its input list. -/
theorem batchOfTasks_repr (h : Heap) (ts : List TaskId) (hnd : ts.Nodup) :
    ReprB (batchOfTasks h ts).1 (batchOfTasks h ts).2 ts := by
  cases ts with
  | nil => exact reprB_empty h
  | cons t rest =>
    have := fold_push_repr rest h (tpool_batch_from_task t) [t]
      (reprB_from_task h t) (by simpa using hnd)
    simpa [batchOfTasks] using this

/-- `struct tpool_config`. -/
structure tpool_config where
  stack_size : Nat
  threads_max : Nat
deriving DecidableEq

/-- `TPOOL_DEFAULT_STACK_SIZE` = 16 MiB. -/
def TPOOL_DEFAULT_STACK_SIZE : Nat := 16 * 1024 * 1024

/-- `TPOOL_DEFAULT_THREADS_MAX` = 16. -/
def TPOOL_DEFAULT_THREADS_MAX : Nat := 16

/-- The data-carrying fields of `struct tpool`.  The mutex and condition
variable hold no data; their effects show up in the event trace of
`tpool_schedule` and in the interleaving model further below. -/
structure tpool where
  cfg : tpool_config
  threads_count : Nat
  threads_idle : Nat
  work_queue : Batch
  done : Bool
deriving DecidableEq

/-- `tpool_init`: normalize zero-valued config fields to the defaults, store
the config, zero both atomic counters, set the work queue to the empty batch
and the done flag to false.  No thread is spawned and nothing else is
written (mutex/cond construction carries no data). -/
def tpool_init (cfg : tpool_config) : tpool :=
  { cfg :=
      { threads_max :=
          if cfg.threads_max = 0 then TPOOL_DEFAULT_THREADS_MAX else cfg.threads_max
        stack_size :=
          if cfg.stack_size = 0 then TPOOL_DEFAULT_STACK_SIZE else cfg.stack_size }
    threads_count := 0
    threads_idle := 0
    work_queue := emptyBatch
    done := false }

/-- The observable synchronization actions of `tpool_schedule`, in program
order: mutex lock/unlock, entry into the thread-spawning branch, a
successful `pthread_create`, a `pthread_cond_signal`, and a
`pthread_cond_broadcast` (emitted only by `tpool_deinit`, never by
`tpool_schedule`). -/
inductive SchedEvent where
  | lock
  | unlock
  | spawnTried
  | spawnOk
  | signal
  | broadcast
deriving DecidableEq

/-- `tpool_schedule`: the sequential logic of the C function, including its
error paths.  `attrErr` and `createErr` are the environment's return codes
for `pthread_attr_init` and `pthread_create` (`0` = success).  The result is
the returned `int`, the updated pool, the updated heap of `next` fields, and
the trace of synchronization events. -/
def tpool_schedule (h : Heap) (t : tpool) (b : Batch) (attrErr createErr : Nat) :
    Int × tpool × Heap × List SchedEvent :=
  if b.size = 0 then (0, t, h, [])
  else
    let hq := tpool_batch_push h t.work_queue b
    let t1 := { t with work_queue := hq.2 }
    let idle := t1.threads_idle
    if idle = 0 ∧ t1.threads_count < t1.cfg.threads_max then
      if attrErr ≠ 0 then
        (-(attrErr : Int), t1, hq.1, [.lock, .unlock, .spawnTried])
      else if createErr ≠ 0 then
        (-(createErr : Int), t1, hq.1, [.lock, .unlock, .spawnTried])
      else
        let t2 := { t1 with threads_count := t1.threads_count + 1 }
        (0, t2, hq.1,
          [.lock, .unlock, .spawnTried, .spawnOk] ++
            (if idle + 1 > 0 then [.signal] else []))
    else
      (0, t1, hq.1, [.lock, .unlock] ++ (if idle > 0 then [.signal] else []))

/-- C8: `tpool_init` replaces a zero `threads_max` with the default 16 and a
zero `stack_size` with the default 16 MiB (16 * 1024 * 1024 bytes), keeps
nonzero configuration values unchanged, zeroes both atomic worker counters,
sets the work queue to the empty batch and the done flag to false, and
spawns no thread (the returned pool's live-thread count is 0 and the
function has no other effect). -/
theorem tpool_init_defaults (cfg : tpool_config) :
    tpool_init cfg =
      { cfg :=
          { threads_max := if cfg.threads_max = 0 then 16 else cfg.threads_max
            stack_size := if cfg.stack_size = 0 then 16 * 1024 * 1024 else cfg.stack_size }
        threads_count := 0
        threads_idle := 0
        work_queue := ⟨0, none, none⟩
        done := false } := rfl

/-- C9: `tpool_schedule` on an empty batch (size 0) returns success (0)
immediately: the pool and the heap are returned unchanged and the event
trace is empty — no mutex acquisition, no spawn, no signal. -/
theorem tpool_schedule_empty_noop (h : Heap) (t : tpool) (b : Batch)
    (attrErr createErr : Nat) (hz : b.size = 0) :
    tpool_schedule h t b attrErr createErr = (0, t, h, []) := by
  simp [tpool_schedule, hz]

theorem tpool_schedule_empty_noop_witness :
    tpool_schedule (fun _ => none) (tpool_init ⟨0, 0⟩) emptyBatch 7 9 =
      (0, tpool_init ⟨0, 0⟩, (fun _ => none), []) :=
  tpool_schedule_empty_noop (fun _ => none) (tpool_init ⟨0, 0⟩) emptyBatch 7 9 rfl

/-- C4: when `tpool_schedule` fails because `pthread_attr_init` or
`pthread_create` returns a nonzero error code `e`, it returns `-e`, and the
submitted batch has already been spliced onto the pool's work queue before
the spawn attempt, so the enqueued tasks remain in the queue (and the tail
link is already written in the heap) on the error path. -/
theorem tpool_schedule_error_keeps_queue (h : Heap) (t : tpool) (b : Batch)
    (attrErr createErr : Nat) (hb : b.size ≠ 0)
    (hcond : t.threads_idle = 0 ∧ t.threads_count < t.cfg.threads_max) :
    (attrErr ≠ 0 →
      tpool_schedule h t b attrErr createErr =
        (-(attrErr : Int),
         { t with work_queue := (tpool_batch_push h t.work_queue b).2 },
         (tpool_batch_push h t.work_queue b).1,
         [.lock, .unlock, .spawnTried])) ∧
    (attrErr = 0 → createErr ≠ 0 →
      tpool_schedule h t b attrErr createErr =
        (-(createErr : Int),
         { t with work_queue := (tpool_batch_push h t.work_queue b).2 },
         (tpool_batch_push h t.work_queue b).1,
         [.lock, .unlock, .spawnTried])) := by
  constructor
  · intro ha
    simp [tpool_schedule, hb, hcond.1, hcond.2, ha]
  · intro ha hcr
    simp [tpool_schedule, hb, hcond.1, hcond.2, ha, hcr]

theorem tpool_schedule_error_keeps_queue_witness :
    tpool_schedule (fun _ => none)
        { cfg := ⟨4096, 4⟩, threads_count := 0, threads_idle := 0,
          work_queue := emptyBatch, done := false }
        (tpool_batch_from_task 3) 11 0 =
      (-11,
       { cfg := ⟨4096, 4⟩, threads_count := 0, threads_idle := 0,
         work_queue := tpool_batch_from_task 3, done := false },
       (fun _ => none), [.lock, .unlock, .spawnTried]) := by
  have h := (tpool_schedule_error_keeps_queue (fun _ => none)
    { cfg := ⟨4096, 4⟩, threads_count := 0, threads_idle := 0,
      work_queue := emptyBatch, done := false }
    (tpool_batch_from_task 3) 11 0 (by decide) ⟨rfl, by decide⟩).1 (by decide)
  exact h

/-- C5: after enqueuing a non-empty batch, `tpool_schedule` attempts to
spawn a worker iff the idle count reads 0 and the live count reads strictly
below `cfg.threads_max` (so at most one thread is spawned per call); it then
signals — never broadcasts — the condition variable exactly once iff at
least one idle worker exists afterwards (a pre-existing one, or the one just
successfully spawned); if the spawn attempt fails no signal is sent. -/
theorem tpool_schedule_spawn_signal_policy (h : Heap) (t : tpool) (b : Batch)
    (attrErr createErr : Nat) (hb : b.size ≠ 0) :
    ((tpool_schedule h t b attrErr createErr).2.2.2.count .spawnTried =
      if t.threads_idle = 0 ∧ t.threads_count < t.cfg.threads_max then 1 else 0) ∧
    ((tpool_schedule h t b attrErr createErr).2.2.2.count .spawnOk ≤ 1) ∧
    ((tpool_schedule h t b attrErr createErr).2.2.2.count .signal =
      if 0 < t.threads_idle ∨
         (t.threads_idle = 0 ∧ t.threads_count < t.cfg.threads_max ∧
          attrErr = 0 ∧ createErr = 0) then 1 else 0) ∧
    (SchedEvent.broadcast ∉ (tpool_schedule h t b attrErr createErr).2.2.2) ∧
    (t.threads_idle = 0 → t.threads_count < t.cfg.threads_max →
      ¬(attrErr = 0 ∧ createErr = 0) →
      SchedEvent.signal ∉ (tpool_schedule h t b attrErr createErr).2.2.2) := by
  by_cases hc : t.threads_idle = 0 ∧ t.threads_count < t.cfg.threads_max
  · by_cases ha : attrErr = 0
    · by_cases hcr : createErr = 0
      · simp [tpool_schedule, hb, hc, ha, hcr, hc.1, List.count_cons]
      · simp [tpool_schedule, hb, hc, ha, hcr, hc.1, List.count_cons]
    · simp [tpool_schedule, hb, hc, ha, hc.1, List.count_cons]
  · have hnospawn : ¬(t.threads_idle = 0 ∧ t.threads_count < t.cfg.threads_max) := hc
    by_cases hi : t.threads_idle = 0
    · have hcnt : ¬ t.threads_count < t.cfg.threads_max := fun hlt => hc ⟨hi, hlt⟩
      simp [tpool_schedule, hb, hnospawn, hi, hcnt, List.count_cons]
    · have hpos : 0 < t.threads_idle := Nat.pos_of_ne_zero hi
      simp [tpool_schedule, hb, hnospawn, hi, hpos, List.count_cons]

theorem tpool_schedule_spawn_signal_policy_witness :
    (tpool_schedule (fun _ => none)
        { cfg := ⟨4096, 4⟩, threads_count := 0, threads_idle := 0,
          work_queue := emptyBatch, done := false }
        (tpool_batch_from_task 3) 0 0).2.2.2.count .signal = 1 := by
  have h := (tpool_schedule_spawn_signal_policy (fun _ => none)
    { cfg := ⟨4096, 4⟩, threads_count := 0, threads_idle := 0,
      work_queue := emptyBatch, done := false }
    (tpool_batch_from_task 3) 0 0 (by decide)).2.2.1
  simpa using h

/-- C6: `tpool_batch_pop` on a batch of size 0 returns `NULL` (`none`) and
leaves the batch completely unchanged — size, head and tail are all
unmodified (the pair's second component is the argument batch itself). -/
theorem tpool_batch_pop_empty_noop (h : Heap) (b : Batch) (hz : b.size = 0) :
    tpool_batch_pop h b = (none, b) := pop_empty hz

theorem tpool_batch_pop_empty_noop_witness :
    tpool_batch_pop (fun _ => none) ⟨0, some 5, some 7⟩ =
      (none, ⟨0, some 5, some 7⟩) :=
  tpool_batch_pop_empty_noop (fun _ => none) ⟨0, some 5, some 7⟩ rfl

/-- C2: for batches `A` and `B` representing disjoint duplicate-free task
lists, `tpool_batch_push A B` yields a batch whose size is
`size A + size B` and whose dequeue order (by repeated `tpool_batch_pop`) is
`A`'s order followed by `B`'s order; the empty batch is a two-sided
identity: pushing an empty batch, in either order, returns the non-empty
batch (and the heap) completely unchanged. -/
theorem tpool_batch_push_size_order (h : Heap) (A B : Batch) (la lb : List TaskId)
    (ha : ReprB h A la) (hb : ReprB h B lb) (hnd : (la ++ lb).Nodup) :
    (tpool_batch_push h A B).2.size = A.size + B.size ∧
    drain (tpool_batch_push h A B).1 (tpool_batch_push h A B).2 = la ++ lb ∧
    (B.size = 0 → tpool_batch_push h A B = (h, A)) ∧
    (A.size = 0 → tpool_batch_push h A B = (h, B)) := by
  have hres := push_repr ha hb hnd
  refine ⟨?_, ?_, ?_, ?_⟩
  · rw [hres.1]
    simp [ha.1, hb.1]
  · exact drain_repr (la ++ lb) _ hnd hres
  · intro hBz
    simp [tpool_batch_push, hBz]
  · intro hAz
    by_cases hBz : B.size = 0
    · have hla : la = [] := List.length_eq_zero.mp (ha.1 ▸ hAz)
      have hlb : lb = [] := List.length_eq_zero.mp (hb.1 ▸ hBz)
      have hA : A = emptyBatch := reprB_nil_iff ha hla
      have hB : B = emptyBatch := reprB_nil_iff hb hlb
      rw [hA, hB]
      simp [tpool_batch_push, emptyBatch]
    · simp [tpool_batch_push, hBz, hAz]

theorem tpool_batch_push_size_order_witness :
    (tpool_batch_push (fun _ => none) (tpool_batch_from_task 0)
      (tpool_batch_from_task 1)).2.size = 2 ∧
    drain (tpool_batch_push (fun _ => none) (tpool_batch_from_task 0)
        (tpool_batch_from_task 1)).1
      (tpool_batch_push (fun _ => none) (tpool_batch_from_task 0)
        (tpool_batch_from_task 1)).2 = [0, 1] := by
  have h := tpool_batch_push_size_order (fun _ => none)
    (tpool_batch_from_task 0) (tpool_batch_from_task 1) [0] [1]
    (reprB_from_task _ 0) (reprB_from_task _ 1) (by decide)
  exact ⟨h.1, h.2.1⟩

/-- The batch invariant of the spec: a batch is well formed in a heap when
it represents some duplicate-free task list (so `size = 0` iff head and tail
are both `NULL`, and for `size > 0` the `next`-chain from head reaches tail
in exactly `size` nodes). -/
def BatchInv (h : Heap) (b : Batch) : Prop := ∃ l, l.Nodup ∧ ReprB h b l

/-- C7: the empty batch and every `tpool_batch_from_task` batch satisfy the
batch invariant; `tpool_batch_push` over distinct tasks and
`tpool_batch_pop` preserve it; and the invariant implies both spec clauses:
`size = 0` iff head and tail are empty, and for `size > 0` the chain of
`next` links from head reaches tail in exactly `size` nodes. -/
theorem tpool_batch_invariant_preserved :
    (∀ h : Heap, BatchInv h emptyBatch) ∧
    (∀ (h : Heap) (t : TaskId), BatchInv h (tpool_batch_from_task t)) ∧
    (∀ (h : Heap) (A B : Batch) (la lb : List TaskId),
      ReprB h A la → ReprB h B lb → (la ++ lb).Nodup →
      BatchInv (tpool_batch_push h A B).1 (tpool_batch_push h A B).2) ∧
    (∀ (h : Heap) (b : Batch), BatchInv h b → BatchInv h (tpool_batch_pop h b).2) ∧
    (∀ (h : Heap) (b : Batch), BatchInv h b →
      ((b.size = 0 ↔ b.head = none ∧ b.tail = none) ∧
       (0 < b.size → ∃ l, l.length = b.size ∧
          ∃ hd tl, b.head = some hd ∧ b.tail = some tl ∧ Chain h hd l tl))) := by
  refine ⟨?_, ?_, ?_, ?_, ?_⟩
  · exact fun h => ⟨[], List.nodup_nil, reprB_empty h⟩
  · exact fun h t => ⟨[t], List.nodup_singleton t, reprB_from_task h t⟩
  · exact fun h A B la lb ha hb hnd => ⟨la ++ lb, hnd, push_repr ha hb hnd⟩
  · rintro h b ⟨l, hnd, hr⟩
    cases l with
    | nil =>
      have hz : b.size = 0 := by simp [hr.1]
      rw [pop_empty hz]
      exact ⟨[], List.nodup_nil, hr⟩
    | cons t l =>
      obtain ⟨b', hpop, hr'⟩ := pop_repr hr (List.nodup_cons.mp hnd).1
      rw [hpop]
      exact ⟨l, (List.nodup_cons.mp hnd).2, hr'⟩
  · rintro h b ⟨l, hnd, hsize, hcase⟩
    rcases hcase with ⟨hl, hhd, htl⟩ | ⟨hd, tl, hhd, htl, hc⟩
    · subst hl
      constructor
      · simp [hsize, hhd, htl]
      · intro hpos
        rw [hsize] at hpos
        exact absurd hpos (by simp)
    · have hlne : l ≠ [] := chain_ne_nil hc
      constructor
      · constructor
        · intro hz
          rw [hsize] at hz
          exact absurd (List.length_eq_zero.mp hz) hlne
        · rintro ⟨hh, -⟩
          rw [hhd] at hh
          exact absurd hh (by simp)
      · intro _
        exact ⟨l, hsize.symm, hd, tl, hhd, htl, hc⟩

theorem tpool_batch_invariant_preserved_witness :
    BatchInv (fun _ => none) (tpool_batch_from_task 5) ∧
    BatchInv (fun _ => none)
      (tpool_batch_pop (fun _ => none) (tpool_batch_from_task 5)).2 :=
  ⟨tpool_batch_invariant_preserved.2.1 (fun _ => none) 5,
   tpool_batch_invariant_preserved.2.2.2.1 (fun _ => none) (tpool_batch_from_task 5)
     (tpool_batch_invariant_preserved.2.1 (fun _ => none) 5)⟩

/-- C10: `tpool_batch_from_task` writes only the returned batch value (it
does not touch the heap of `next` fields — it does not even take it), and
`tpool_batch_pop`'s result is unchanged under any modification of the heap
at the batch's tail task, i.e. it never depends on the tail task's `next`
field; consequently the dequeue order of a batch built from distinct tasks
via `batchOfTasks` (repeated `from_task`/`push`) is the construction order,
for every initial (arbitrary, "uninitialized") heap of `next` fields. -/
theorem tpool_batch_pop_no_tail_read :
    (∀ (h h' : Heap) (b : Batch),
      (∀ x : TaskId, b.tail ≠ some x → h x = h' x) →
      tpool_batch_pop h b = tpool_batch_pop h' b) ∧
    (∀ t : TaskId, tpool_batch_from_task t = ⟨1, some t, some t⟩) ∧
    (∀ (h : Heap) (ts : List TaskId), ts.Nodup →
      drain (batchOfTasks h ts).1 (batchOfTasks h ts).2 = ts) := by
  refine ⟨?_, fun t => rfl, ?_⟩
  · intro h h' b hagree
    by_cases hz : b.size = 0
    · simp [tpool_batch_pop, hz]
    · cases hh : b.head with
      | none => simp [tpool_batch_pop, hz, hh]
      | some hd =>
        by_cases htl : b.tail = some hd
        · simp [tpool_batch_pop, hz, hh, htl]
        · simp [tpool_batch_pop, hz, hh, htl, hagree hd htl]
  · intro h ts hnd
    exact drain_repr ts _ hnd (batchOfTasks_repr h ts hnd)

theorem tpool_batch_pop_no_tail_read_witness :
    (tpool_batch_pop (fun _ => none) ⟨1, some 4, some 4⟩ =
      tpool_batch_pop (Function.update (fun _ => none) 4 (some 123))
        ⟨1, some 4, some 4⟩) ∧
    drain (batchOfTasks (fun _ => some 99) [0, 1, 2]).1
      (batchOfTasks (fun _ => some 99) [0, 1, 2]).2 = [0, 1, 2] := by
  refine ⟨tpool_batch_pop_no_tail_read.1 (fun _ => none)
      (Function.update (fun _ => none) 4 (some 123)) ⟨1, some 4, some 4⟩ ?_,
    tpool_batch_pop_no_tail_read.2.2 (fun _ => some 99) [0, 1, 2] (by decide)⟩
  intro x hx
  have hne : x ≠ 4 := by
    intro he
    exact hx (by rw [he])
  have hupd := Function.update_noteq hne (some 123)
    (fun _ : TaskId => (none : Option TaskId))
  exact hupd.symm

/-!
Interleaving model of the worker loop `tpool_thread_main` and of the
scenario behind the spec's exactly-once property: one `tpool_schedule` call
submitting a batch of distinct tasks to a freshly initialized pool with a
positive thread cap, followed by `tpool_deinit`.  In this scenario
`tpool_schedule` runs once, and its spawn branch (which requires the idle
count to read zero) executes at most once, so at most one worker thread
ever exists; the model therefore carries one optional worker.
Mutex-protected regions of the C code are single atomic steps (the mutex
serializes them: the worker holds the lock exactly in phase `locked`, and
the main thread's critical sections require the worker not to hold it).
`pthread_cond_wait` may return at any time, which covers signals, the
deinit broadcast and spurious wakeups; the exactly-once property is a
safety property over states where `tpool_deinit` has returned, so no
fairness or wakeup-delivery assumption is needed.  `pthread_create` is
assumed to succeed and a task's work function is one step that returns. -/

/-- Phases of a worker thread running `tpool_thread_main`. -/
inductive WPhase where
  | atLoop
  | locked
  | waiting
  | haveTask (t : Option TaskId)
  | exited
deriving DecidableEq

/-- Phases of the main thread running `tpool_schedule(b); tpool_deinit()`. -/
inductive MPhase where
  | schedPush
  | schedSpawn
  | deinitLock
  | deinitSpin
  | finished
deriving DecidableEq

/-- Shared state of the scenario: the heap of `next` fields, the pool's
mutex-protected queue and done flag, the two atomic counters, the two
threads' phases, and the history of executed tasks. -/
structure CState where
  heap : Heap
  queue : Batch
  done : Bool
  tCount : Nat
  tIdle : Nat
  main : MPhase
  worker : Option WPhase
  executed : List TaskId

/-- The task a worker has popped but not yet finished executing. -/
def inflight : Option WPhase → List TaskId
  | some (.haveTask (some t)) => [t]
  | _ => []

/-- One interleaved step of the scenario.  Worker steps translate
`tpool_thread_main` line by line: lock; if the queue is empty then exit
(decrementing the live count) when done, else increment idle and wait;
otherwise pop under the lock, unlock, and run the task if one was popped.
Main steps translate `tpool_schedule` (splice under the lock, then the
spawn decision on the atomic counters) and `tpool_deinit` (set done under
the lock, then spin until the live count is zero). -/
inductive Step (b : Batch) (cap : Nat) : CState → CState → Prop
  | sched_empty (s : CState) :
      s.main = .schedPush → b.size = 0 →
      Step b cap s { s with main := .deinitLock }
  | sched_push (s : CState) :
      s.main = .schedPush → b.size ≠ 0 → s.worker ≠ some .locked →
      Step b cap s { s with
        heap := (tpool_batch_push s.heap s.queue b).1,
        queue := (tpool_batch_push s.heap s.queue b).2,
        main := .schedSpawn }
  | sched_spawn (s : CState) :
      s.main = .schedSpawn → s.tIdle = 0 → s.tCount < cap → s.worker = none →
      Step b cap s { s with
        tCount := s.tCount + 1,
        worker := some .atLoop,
        main := .deinitLock }
  | sched_no_spawn (s : CState) :
      s.main = .schedSpawn → ¬(s.tIdle = 0 ∧ s.tCount < cap) →
      Step b cap s { s with main := .deinitLock }
  | deinit_set (s : CState) :
      s.main = .deinitLock → s.worker ≠ some .locked →
      Step b cap s { s with done := true, main := .deinitSpin }
  | deinit_ret (s : CState) :
      s.main = .deinitSpin → s.tCount = 0 →
      Step b cap s { s with main := .finished }
  | w_lock (s : CState) :
      s.worker = some .atLoop →
      Step b cap s { s with worker := some .locked }
  | w_exit (s : CState) :
      s.worker = some .locked → s.queue.size = 0 → s.done = true →
      Step b cap s { s with tCount := s.tCount - 1, worker := some .exited }
  | w_wait (s : CState) :
      s.worker = some .locked → s.queue.size = 0 → s.done = false →
      Step b cap s { s with tIdle := s.tIdle + 1, worker := some .waiting }
  | w_pop (s : CState) :
      s.worker = some .locked → s.queue.size ≠ 0 →
      Step b cap s { s with
        queue := (tpool_batch_pop s.heap s.queue).2,
        worker := some (.haveTask (tpool_batch_pop s.heap s.queue).1) }
  | w_wake (s : CState) :
      s.worker = some .waiting →
      Step b cap s { s with
        tIdle := s.tIdle - 1,
        queue := (tpool_batch_pop s.heap s.queue).2,
        worker := some (.haveTask (tpool_batch_pop s.heap s.queue).1) }
  | w_run (s : CState) (t : TaskId) :
      s.worker = some (.haveTask (some t)) →
      Step b cap s { s with executed := s.executed ++ [t], worker := some .atLoop }
  | w_skip (s : CState) :
      s.worker = some (.haveTask none) →
      Step b cap s { s with worker := some .atLoop }

/-- Initial state: pool freshly initialized (`tpool_init`), main thread
about to call `tpool_schedule b`, no worker spawned yet. -/
def initState (h0 : Heap) : CState :=
  { heap := h0, queue := emptyBatch, done := false, tCount := 0, tIdle := 0,
    main := .schedPush, worker := none, executed := [] }

/-- The inductive invariant of the scenario, for a batch `b` representing
duplicate-free task list `l` in the initial heap `h0`. -/
structure Inv (h0 : Heap) (b : Batch) (l : List TaskId) (s : CState) : Prop where
  heap_eq : s.heap = h0
  at_push : s.main = .schedPush →
    s.queue = emptyBatch ∧ s.worker = none ∧ s.executed = []
  at_spawn : s.main = .schedSpawn → s.worker = none
  worker_spawned : b.size ≠ 0 →
    s.main = .deinitLock ∨ s.main = .deinitSpin ∨ s.main = .finished →
    s.worker ≠ none
  idle_eq : s.tIdle = if s.worker = some .waiting then 1 else 0
  count_eq : s.tCount = if s.worker = none ∨ s.worker = some .exited then 0 else 1
  fin_count : s.main = .finished → s.tCount = 0
  queue_repr : s.main ≠ .schedPush →
    ∃ ql, ReprB h0 s.queue ql ∧ (s.worker = some .exited → ql = []) ∧
      (ql ++ (inflight s.worker ++ s.executed)).Perm l

theorem inflight_none : inflight none = [] := rfl

theorem inflight_atLoop : inflight (some .atLoop) = [] := rfl

theorem inflight_locked : inflight (some .locked) = [] := rfl

theorem inflight_waiting : inflight (some .waiting) = [] := rfl

theorem inflight_haveNone : inflight (some (.haveTask none)) = [] := rfl

theorem inflight_exited : inflight (some .exited) = [] := rfl

theorem inflight_run (t : TaskId) : inflight (some (.haveTask (some t))) = [t] := rfl

theorem worker_some_main_ne {h0 : Heap} {b : Batch} {l : List TaskId} {s : CState}
    (hs : Inv h0 b l s) {w : WPhase} (hw : s.worker = some w) :
    s.main ≠ .schedPush ∧ s.main ≠ .schedSpawn := by
  constructor
  · intro hm
    rw [(hs.at_push hm).2.1] at hw
    exact Option.noConfusion hw
  · intro hm
    rw [hs.at_spawn hm] at hw
    exact Option.noConfusion hw

theorem inv_init (h0 : Heap) (b : Batch) (l : List TaskId) :
    Inv h0 b l (initState h0) := by
  refine ⟨rfl, fun _ => ⟨rfl, rfl, rfl⟩, ?_, ?_, rfl, rfl, ?_, ?_⟩
  · intro hm
    exact absurd hm (by simp [initState])
  · intro _ hm
    rcases hm with hm | hm | hm <;> exact absurd hm (by simp [initState])
  · intro hm
    exact absurd hm (by simp [initState])
  · intro hm
    exact absurd rfl hm

theorem inv_step {h0 : Heap} {b : Batch} {l : List TaskId} {cap : Nat}
    (hb : ReprB h0 b l) (hnd : l.Nodup) (hcap : 0 < cap)
    {s s' : CState} (hs : Inv h0 b l s) (st : Step b cap s s') :
    Inv h0 b l s' := by
  cases st with
  | sched_empty hm hz =>
    obtain ⟨hq, hw, he⟩ := hs.at_push hm
    have hl : l = [] := List.length_eq_zero.mp (by rw [← hb.1]; exact hz)
    subst hl
    refine ⟨hs.heap_eq, ?_, ?_, ?_, hs.idle_eq, hs.count_eq, ?_, ?_⟩
    · intro hm'
      simp at hm'
    · intro hm'
      simp at hm'
    · intro hbz _
      exact absurd hz hbz
    · intro hm'
      simp at hm'
    · intro _
      refine ⟨[], ?_, fun _ => rfl, ?_⟩
      · show ReprB h0 s.queue []
        rw [hq]
        exact reprB_empty h0
      · show ([] ++ (inflight s.worker ++ s.executed)).Perm []
        rw [hw, he, inflight_none]
        rfl
  | sched_push hm hz hlock =>
    obtain ⟨hq, hw, he⟩ := hs.at_push hm
    have hcomp : tpool_batch_push s.heap s.queue b = (s.heap, b) := by
      rw [hq]
      simp [tpool_batch_push, hz, emptyBatch]
    refine ⟨?_, ?_, ?_, ?_, hs.idle_eq, hs.count_eq, ?_, ?_⟩
    · show (tpool_batch_push s.heap s.queue b).1 = h0
      rw [hcomp]
      exact hs.heap_eq
    · intro hm'
      simp at hm'
    · intro _
      exact hw
    · intro _ hm'
      rcases hm' with h1 | h1 | h1 <;> simp at h1
    · intro hm'
      simp at hm'
    · intro _
      refine ⟨l, ?_, ?_, ?_⟩
      · show ReprB h0 (tpool_batch_push s.heap s.queue b).2 l
        rw [hcomp]
        exact hb
      · intro hex'
        show (l = [])
        rw [hw] at hex'
        exact Option.noConfusion hex'
      · show (l ++ (inflight s.worker ++ s.executed)).Perm l
        rw [hw, he, inflight_none]
        simp
  | sched_spawn hm hidle0 hcnt hwnone =>
    have h0c : s.tCount = 0 := by
      rw [hs.count_eq, hwnone]
      simp
    refine ⟨hs.heap_eq, ?_, ?_, ?_, ?_, ?_, ?_, ?_⟩
    · intro hm'
      simp at hm'
    · intro hm'
      simp at hm'
    · intro _ _
      simp
    · show s.tIdle = if (some WPhase.atLoop = some .waiting) then 1 else 0
      simpa using hidle0
    · show s.tCount + 1 = _
      simp [h0c]
    · intro hm'
      simp at hm'
    · intro _
      have hmne : s.main ≠ .schedPush := by
        rw [hm]
        simp
      obtain ⟨ql, hrq, hex, hperm⟩ := hs.queue_repr hmne
      refine ⟨ql, hrq, ?_, ?_⟩
      · intro hex'
        simp at hex'
      · show (ql ++ (inflight (some WPhase.atLoop) ++ s.executed)).Perm l
        rw [hwnone, inflight_none] at hperm
        rw [inflight_atLoop]
        exact hperm
  | sched_no_spawn hm hng =>
    have hwnone := hs.at_spawn hm
    have h1 : s.tIdle = 0 := by
      rw [hs.idle_eq, hwnone]
      simp
    have h2 : s.tCount < cap := by
      rw [hs.count_eq, hwnone]
      simpa using hcap
    exact absurd ⟨h1, h2⟩ hng
  | deinit_set hm hlock =>
    refine ⟨hs.heap_eq, ?_, ?_, ?_, hs.idle_eq, hs.count_eq, ?_, ?_⟩
    · intro hm'
      simp at hm'
    · intro hm'
      simp at hm'
    · intro hbz _
      exact hs.worker_spawned hbz (Or.inl hm)
    · intro hm'
      simp at hm'
    · intro _
      have hmne : s.main ≠ .schedPush := by
        rw [hm]
        simp
      exact hs.queue_repr hmne
  | deinit_ret hm hc0 =>
    refine ⟨hs.heap_eq, ?_, ?_, ?_, hs.idle_eq, hs.count_eq, ?_, ?_⟩
    · intro hm'
      simp at hm'
    · intro hm'
      simp at hm'
    · intro hbz _
      exact hs.worker_spawned hbz (Or.inr (Or.inl hm))
    · intro _
      exact hc0
    · intro _
      have hmne : s.main ≠ .schedPush := by
        rw [hm]
        simp
      exact hs.queue_repr hmne
  | w_lock hw =>
    have hmne := worker_some_main_ne hs hw
    refine ⟨hs.heap_eq, ?_, ?_, ?_, ?_, ?_, ?_, ?_⟩
    · intro hm'
      exact absurd hm' hmne.1
    · intro hm'
      exact absurd hm' hmne.2
    · intro _ _
      simp
    · show s.tIdle = _
      rw [hs.idle_eq, hw]
      simp
    · show s.tCount = _
      rw [hs.count_eq, hw]
      simp
    · intro hm'
      exact hs.fin_count hm'
    · intro _
      obtain ⟨ql, hrq, hex, hperm⟩ := hs.queue_repr hmne.1
      refine ⟨ql, hrq, ?_, ?_⟩
      · intro hex'
        simp at hex'
      · show (ql ++ (inflight (some WPhase.locked) ++ s.executed)).Perm l
        rw [hw, inflight_atLoop] at hperm
        rw [inflight_locked]
        exact hperm
  | w_exit hw hqz hdone =>
    have hmne := worker_some_main_ne hs hw
    obtain ⟨ql, hrq, hex, hperm⟩ := hs.queue_repr hmne.1
    have hql : ql = [] := List.length_eq_zero.mp (by rw [← hrq.1]; exact hqz)
    refine ⟨hs.heap_eq, ?_, ?_, ?_, ?_, ?_, ?_, ?_⟩
    · intro hm'
      exact absurd hm' hmne.1
    · intro hm'
      exact absurd hm' hmne.2
    · intro _ _
      simp
    · show s.tIdle = _
      rw [hs.idle_eq, hw]
      simp
    · show s.tCount - 1 = _
      rw [hs.count_eq, hw]
      simp
    · intro _
      show s.tCount - 1 = 0
      rw [hs.count_eq, hw]
      simp
    · intro _
      refine ⟨ql, hrq, fun _ => hql, ?_⟩
      show (ql ++ (inflight (some WPhase.exited) ++ s.executed)).Perm l
      rw [hw, inflight_locked] at hperm
      rw [inflight_exited]
      exact hperm
  | w_wait hw hqz hdf =>
    have hmne := worker_some_main_ne hs hw
    refine ⟨hs.heap_eq, ?_, ?_, ?_, ?_, ?_, ?_, ?_⟩
    · intro hm'
      exact absurd hm' hmne.1
    · intro hm'
      exact absurd hm' hmne.2
    · intro _ _
      simp
    · show s.tIdle + 1 = _
      rw [hs.idle_eq, hw]
      simp
    · show s.tCount = _
      rw [hs.count_eq, hw]
      simp
    · intro hm'
      exact hs.fin_count hm'
    · intro _
      obtain ⟨ql, hrq, hex, hperm⟩ := hs.queue_repr hmne.1
      refine ⟨ql, hrq, ?_, ?_⟩
      · intro hex'
        simp at hex'
      · show (ql ++ (inflight (some WPhase.waiting) ++ s.executed)).Perm l
        rw [hw, inflight_locked] at hperm
        rw [inflight_waiting]
        exact hperm
  | w_pop hw hqnz =>
    have hmne := worker_some_main_ne hs hw
    obtain ⟨ql, hrq, hex, hperm⟩ := hs.queue_repr hmne.1
    have hndq : (ql ++ (inflight s.worker ++ s.executed)).Nodup := hperm.symm.nodup hnd
    have hndql : ql.Nodup := hndq.of_append_left
    cases hqlc : ql with
    | nil =>
      rw [hqlc] at hrq
      exact absurd hrq.1 hqnz
    | cons t ql' =>
      rw [hqlc] at hrq hndql hperm
      have hnotin : t ∉ ql' := (List.nodup_cons.mp hndql).1
      obtain ⟨b', hpop, hrq'⟩ := pop_repr hrq hnotin
      have hpop' : tpool_batch_pop s.heap s.queue = (some t, b') := by
        rw [hs.heap_eq]
        exact hpop
      refine ⟨hs.heap_eq, ?_, ?_, ?_, ?_, ?_, ?_, ?_⟩
      · intro hm'
        exact absurd hm' hmne.1
      · intro hm'
        exact absurd hm' hmne.2
      · intro _ _
        simp
      · show s.tIdle = _
        rw [hs.idle_eq, hw]
        simp
      · show s.tCount = _
        rw [hs.count_eq, hw]
        simp
      · intro hm'
        exact hs.fin_count hm'
      · intro _
        refine ⟨ql', ?_, ?_, ?_⟩
        · show ReprB h0 (tpool_batch_pop s.heap s.queue).2 ql'
          rw [hpop']
          exact hrq'
        · intro hex'
          rw [hpop'] at hex'
          simp at hex'
        · show (ql' ++ (inflight (some (WPhase.haveTask
              (tpool_batch_pop s.heap s.queue).1)) ++ s.executed)).Perm l
          rw [hpop', inflight_run]
          rw [hw, inflight_locked] at hperm
          simp only [List.nil_append] at hperm
          refine List.Perm.trans ?_ hperm
          simp only [List.singleton_append, List.cons_append]
          exact List.perm_middle
  | w_wake hw =>
    have hmne := worker_some_main_ne hs hw
    obtain ⟨ql, hrq, hex, hperm⟩ := hs.queue_repr hmne.1
    have hndq : (ql ++ (inflight s.worker ++ s.executed)).Nodup := hperm.symm.nodup hnd
    have hndql : ql.Nodup := hndq.of_append_left
    have hcommon :
        s.tIdle - 1 = 0 ∧ s.tCount = 1 := by
      rw [hs.idle_eq, hs.count_eq, hw]
      simp
    cases hqlc : ql with
    | nil =>
      rw [hqlc] at hrq hperm
      have hqz : s.queue.size = 0 := hrq.1
      have hpop0 : tpool_batch_pop s.heap s.queue = (none, s.queue) := pop_empty hqz
      refine ⟨hs.heap_eq, ?_, ?_, ?_, ?_, ?_, ?_, ?_⟩
      · intro hm'
        exact absurd hm' hmne.1
      · intro hm'
        exact absurd hm' hmne.2
      · intro _ _
        simp
      · show s.tIdle - 1 = _
        rw [hpop0]
        simpa using hcommon.1
      · show s.tCount = _
        rw [hpop0, hcommon.2]
        simp
      · intro hm'
        exact hs.fin_count hm'
      · intro _
        refine ⟨[], ?_, fun _ => rfl, ?_⟩
        · show ReprB h0 (tpool_batch_pop s.heap s.queue).2 []
          rw [hpop0]
          exact hrq
        · show (([] : List TaskId) ++ (inflight (some (WPhase.haveTask
              (tpool_batch_pop s.heap s.queue).1)) ++ s.executed)).Perm l
          rw [hpop0, inflight_haveNone]
          rw [hw, inflight_waiting] at hperm
          exact hperm
    | cons t ql' =>
      rw [hqlc] at hrq hndql hperm
      have hnotin : t ∉ ql' := (List.nodup_cons.mp hndql).1
      obtain ⟨b', hpop, hrq'⟩ := pop_repr hrq hnotin
      have hpop' : tpool_batch_pop s.heap s.queue = (some t, b') := by
        rw [hs.heap_eq]
        exact hpop
      refine ⟨hs.heap_eq, ?_, ?_, ?_, ?_, ?_, ?_, ?_⟩
      · intro hm'
        exact absurd hm' hmne.1
      · intro hm'
        exact absurd hm' hmne.2
      · intro _ _
        simp
      · show s.tIdle - 1 = _
        rw [hpop']
        simpa using hcommon.1
      · show s.tCount = _
        rw [hpop', hcommon.2]
        simp
      · intro hm'
        exact hs.fin_count hm'
      · intro _
        refine ⟨ql', ?_, ?_, ?_⟩
        · show ReprB h0 (tpool_batch_pop s.heap s.queue).2 ql'
          rw [hpop']
          exact hrq'
        · intro hex'
          rw [hpop'] at hex'
          simp at hex'
        · show (ql' ++ (inflight (some (WPhase.haveTask
              (tpool_batch_pop s.heap s.queue).1)) ++ s.executed)).Perm l
          rw [hpop', inflight_run]
          rw [hw, inflight_waiting] at hperm
          simp only [List.nil_append] at hperm
          refine List.Perm.trans ?_ hperm
          simp only [List.singleton_append, List.cons_append]
          exact List.perm_middle
  | w_run t hw =>
    have hmne := worker_some_main_ne hs hw
    obtain ⟨ql, hrq, hex, hperm⟩ := hs.queue_repr hmne.1
    refine ⟨hs.heap_eq, ?_, ?_, ?_, ?_, ?_, ?_, ?_⟩
    · intro hm'
      exact absurd hm' hmne.1
    · intro hm'
      exact absurd hm' hmne.2
    · intro _ _
      simp
    · show s.tIdle = _
      rw [hs.idle_eq, hw]
      simp
    · show s.tCount = _
      rw [hs.count_eq, hw]
      simp
    · intro hm'
      exact hs.fin_count hm'
    · intro _
      refine ⟨ql, hrq, ?_, ?_⟩
      · intro hex'
        simp at hex'
      · show (ql ++ (inflight (some WPhase.atLoop) ++ (s.executed ++ [t]))).Perm l
        rw [inflight_atLoop]
        rw [hw, inflight_run] at hperm
        refine List.Perm.trans ?_ hperm
        simp only [List.nil_append, List.singleton_append]
        exact List.Perm.append_left ql (List.perm_append_singleton t s.executed)
  | w_skip hw =>
    have hmne := worker_some_main_ne hs hw
    refine ⟨hs.heap_eq, ?_, ?_, ?_, ?_, ?_, ?_, ?_⟩
    · intro hm'
      exact absurd hm' hmne.1
    · intro hm'
      exact absurd hm' hmne.2
    · intro _ _
      simp
    · show s.tIdle = _
      rw [hs.idle_eq, hw]
      simp
    · show s.tCount = _
      rw [hs.count_eq, hw]
      simp
    · intro hm'
      exact hs.fin_count hm'
    · intro _
      obtain ⟨ql, hrq, hex, hperm⟩ := hs.queue_repr hmne.1
      refine ⟨ql, hrq, ?_, ?_⟩
      · intro hex'
        simp at hex'
      · show (ql ++ (inflight (some WPhase.atLoop) ++ s.executed)).Perm l
        rw [hw, inflight_haveNone] at hperm
        rw [inflight_atLoop]
        exact hperm

theorem inv_reachable {h0 : Heap} {b : Batch} {l : List TaskId} {cap : Nat}
    (hb : ReprB h0 b l) (hnd : l.Nodup) (hcap : 0 < cap) {s : CState}
    (hr : Relation.ReflTransGen (Step b cap) (initState h0) s) :
    Inv h0 b l s := by
  induction hr with
  | refl => exact inv_init h0 b l
  | tail hpre hstep ih => exact inv_step hb hnd hcap ih hstep

/-- C1: for a pool initialized with a positive thread cap and a batch of
distinct tasks (representing the duplicate-free list `l`) submitted by one
`tpool_schedule` call, in every interleaving of
`tpool_schedule(b); tpool_deinit()` with the worker loop: once
`tpool_deinit` has returned, the history of work-function invocations is a
permutation of `l` — every submitted task was invoked exactly once, no task
lost and none invoked twice. -/
theorem tpool_run_tasks_exactly_once {h0 : Heap} {b : Batch} {l : List TaskId}
    {cap : Nat} (hb : ReprB h0 b l) (hnd : l.Nodup) (hcap : 0 < cap)
    {s : CState} (hr : Relation.ReflTransGen (Step b cap) (initState h0) s)
    (hfin : s.main = .finished) : s.executed.Perm l := by
  have hinv := inv_reachable hb hnd hcap hr
  have hc0 : s.tCount = 0 := hinv.fin_count hfin
  have hwcase : s.worker = none ∨ s.worker = some .exited := by
    by_cases hwc : s.worker = none ∨ s.worker = some .exited
    · exact hwc
    · rw [hinv.count_eq, if_neg hwc] at hc0
      exact absurd hc0 one_ne_zero
  have hmne : s.main ≠ .schedPush := by
    rw [hfin]
    simp
  obtain ⟨ql, hrq, hexq, hperm⟩ := hinv.queue_repr hmne
  rcases hwcase with hwn | hwe
  · have hbz : b.size = 0 := by
      by_contra hbnz
      exact hinv.worker_spawned hbnz (Or.inr (Or.inr hfin)) hwn
    have hl : l = [] := List.length_eq_zero.mp (by rw [← hb.1]; exact hbz)
    subst hl
    rw [hwn, inflight_none] at hperm
    have hnil : ql ++ ([] ++ s.executed) = [] := List.Perm.eq_nil hperm
    have hex0 : s.executed = [] := (List.append_eq_nil.mp hnil).2
    rw [hex0]
  · have hql := hexq hwe
    subst hql
    rw [hwe, inflight_exited] at hperm
    simpa using hperm

def runW0 : CState := initState (fun _ => none)

def runW1 : CState := { runW0 with main := .deinitLock }

def runW2 : CState := { runW1 with done := true, main := .deinitSpin }

def runW3 : CState := { runW2 with main := .finished }

theorem tpool_run_tasks_exactly_once_witness : runW3.executed.Perm [] := by
  have h1 : Step emptyBatch 1 runW0 runW1 := Step.sched_empty runW0 rfl rfl
  have h2 : Step emptyBatch 1 runW1 runW2 := Step.deinit_set runW1 rfl (by decide)
  have h3 : Step emptyBatch 1 runW2 runW3 := Step.deinit_ret runW2 rfl rfl
  have hchain :
      Relation.ReflTransGen (Step emptyBatch 1) (initState (fun _ => none)) runW3 :=
    Relation.ReflTransGen.head h1
      (Relation.ReflTransGen.head h2 (Relation.ReflTransGen.single h3))
  exact tpool_run_tasks_exactly_once (reprB_empty (fun _ => none)) List.nodup_nil
    Nat.one_pos hchain rfl

/-- C3: in the interleaving model of `tpool_thread_main`, a worker reaches
its terminal Exiting state only through the exit transition, which requires
it to hold the mutex (phase `locked`) and to observe, in that very state,
a work queue of size 0 and a done flag equal to true; the transition
decrements the live-thread count.  Consequently a worker never exits while
the queue is non-empty. -/
theorem tpool_worker_exit_requires_done_empty {b : Batch} {cap : Nat}
    {s s' : CState} (st : Step b cap s s')
    (hex : s'.worker = some .exited) (hpre : s.worker ≠ some .exited) :
    s.worker = some .locked ∧ s.queue.size = 0 ∧ s.done = true ∧
    s'.tCount = s.tCount - 1 := by
  cases st with
  | w_exit hw hqz hdone => exact ⟨hw, hqz, hdone, rfl⟩
  | sched_empty hm hz => exact absurd hex hpre
  | sched_push hm hz hlock => exact absurd hex hpre
  | sched_spawn hm h1 h2 h3 => simp at hex
  | sched_no_spawn hm hng => exact absurd hex hpre
  | deinit_set hm hlock => exact absurd hex hpre
  | deinit_ret hm hc0 => exact absurd hex hpre
  | w_lock hw => simp at hex
  | w_wait hw hqz hdf => simp at hex
  | w_pop hw hqnz => simp at hex
  | w_wake hw => simp at hex
  | w_run t hw => simp at hex
  | w_skip hw => simp at hex

def exitPre : CState :=
  { heap := fun _ => none, queue := emptyBatch, done := true, tCount := 1,
    tIdle := 0, main := .deinitSpin, worker := some .locked, executed := [] }

theorem tpool_worker_exit_requires_done_empty_witness :
    exitPre.worker = some WPhase.locked ∧ exitPre.queue.size = 0 ∧
    exitPre.done = true ∧
    ({ exitPre with
        tCount := exitPre.tCount - 1,
        worker := some WPhase.exited } : CState).tCount = exitPre.tCount - 1 :=
  tpool_worker_exit_requires_done_empty
    (@Step.w_exit emptyBatch 1 exitPre rfl rfl rfl) rfl (by decide)

end ThreadpoolH
